import Mathlib

/-!
Verification of the orchestration core of the `ai-co-scientist` repository.

The Python source stores run state in a shared `context_memory` dictionary.
We embed the parts of that state the orchestration reads and writes:
hypotheses (append-only list), the `reviewed_hypotheses` id list, and the
Elo tournament state.  Python dictionaries are embedded as association
lists that preserve insertion order, mirroring CPython dict semantics
(assignment to an existing key keeps its position, a new key is appended).
Python floats are idealized as real numbers; `round` is the rounding of
reals to integers.
-/

namespace CoScientist

/-- A hypothesis record (`src/agents/generation_agent.py`, `evolution_agent.py`).
Only the string fields read by the orchestration core are embedded; absence
of a dict key is modelled as the empty string. -/
structure Hypothesis where
  id : String
  parent_id : String := ""
  inspiration_id : String := ""
  title : String := ""
  stmt : String := ""
  rationale : String := ""
  testability : String := ""
  generation_method : String := ""
  deriving Repr, DecidableEq

/-- A completed match appended to `tournament_state["matches"]`
(`ranking_agent.py`, `_update_elo_ratings`). -/
structure MatchRec where
  hypothesis_1 : String
  hypothesis_2 : String
  winner : String
  deriving Repr, DecidableEq

/-- Which comparison routine `_run_match` dispatched to. -/
inductive MatchKind where
  | debate
  | simple
  deriving Repr, DecidableEq

/-- The result dict of `_run_scientific_debate` / `_run_simple_comparison`;
the `kind` records which routine produced it. -/
structure MatchResult where
  hypothesis_1 : String
  hypothesis_2 : String
  winner : String
  kind : MatchKind
  deriving Repr, DecidableEq

/-- The dict stored at key `"tournament_state"` (`ranking_agent.py`). -/
structure TournamentState where
  ratings : List (String × ℤ)
  matchList : List MatchRec
  completed_matches : ℕ
  progress : ℚ
  top_ranked : List String
  deriving Repr, DecidableEq

/-- The review result of `_review_hypothesis` (`reflection_agent.py`);
only the fields the orchestration reads are embedded. -/
structure Review where
  hypothesis_id : String
  passed : Bool
  deriving Repr, DecidableEq

/-- The slice of the shared `context_memory` the claims are about:
key `"hypotheses"`, key `"reviewed_hypotheses"`, key `"tournament_state"`
(`none` = key absent, in which case reads default to the empty dict). -/
structure Memory where
  hypotheses : List Hypothesis
  reviewed : List String
  tournamentState : Option TournamentState
  deriving Repr, DecidableEq

/-- The dict returned by `_calculate_statistics` (`supervisor_agent.py`). -/
structure Stats where
  num_hypotheses : ℕ
  num_reviewed : ℕ
  unreviewed : List String
  tournament_progress : ℚ
  top_hypotheses : List String
  deriving Repr, DecidableEq

/-- A task record enqueued by the supervisor (`_update_task_queue`). -/
structure Task where
  agent : String
  task_type : String
  count : ℕ := 0
  hypothesis_id : String := ""
  deriving Repr, DecidableEq

/- ### Python dict operations on ordered association lists -/

/-- Lookup `d[k]` with default (`dict.get(k, dflt)`): first entry with key `k`. -/
def dictGet : List (String × ℤ) → String → ℤ → ℤ
  | [], _, dflt => dflt
  | p :: ps, k, dflt => if p.1 == k then p.2 else dictGet ps k dflt

/-- Membership test `k in d`. -/
def dictMem : List (String × ℤ) → String → Bool
  | [], _ => false
  | p :: ps, k => p.1 == k || dictMem ps k

/-- Assignment `d[k] = v`: overwrite in place if the key exists, else append. -/
def dictSet : List (String × ℤ) → String → ℤ → List (String × ℤ)
  | [], k, v => [(k, v)]
  | p :: ps, k, v => if p.1 == k then (k, v) :: ps else p :: dictSet ps k v

theorem dictGet_dictSet_self (d : List (String × ℤ)) (k : String) (v dflt : ℤ) :
    dictGet (dictSet d k v) k dflt = v := by
  induction d with
  | nil => simp [dictGet, dictSet]
  | cons p ps ih =>
    by_cases h : p.1 = k
    · simp [dictGet, dictSet, h]
    · simp [dictGet, dictSet, h, ih]

theorem dictGet_dictSet_ne (d : List (String × ℤ)) (k k' : String) (v dflt : ℤ)
    (h : k ≠ k') : dictGet (dictSet d k' v) k dflt = dictGet d k dflt := by
  have h' : ¬ (k' = k) := fun hk => h hk.symm
  induction d with
  | nil => simp [dictGet, dictSet, h']
  | cons p ps ih =>
    by_cases hp : p.1 = k'
    · simp [dictGet, dictSet, hp, h']
    · by_cases hk : p.1 = k <;> simp [dictGet, dictSet, hp, hk, h, ih]

theorem dictGet_of_dictMem (d : List (String × ℤ)) (k : String) (a b : ℤ)
    (h : dictMem d k = true) : dictGet d k a = dictGet d k b := by
  induction d with
  | nil => simp [dictMem] at h
  | cons p ps ih =>
    by_cases hp : p.1 = k
    · simp [dictGet, hp]
    · simp [dictMem, hp] at h
      simp [dictGet, hp, ih h]

/- ### Ranking agent (`src/agents/ranking_agent.py`) -/

/-- Embeds `_initialize_tournament`. -/
def initTournament : TournamentState :=
  { ratings := [], matchList := [], completed_matches := 0, progress := 0,
    top_ranked := [] }

/-- The rating-seeding loop inside `_select_hypothesis_pair`: every
hypothesis without a rating gets the default 1200, in list order. -/
def initRatings (ratings : List (String × ℤ)) (hyps : List Hypothesis) :
    List (String × ℤ) :=
  hyps.foldl (fun r h => if dictMem r h.id then r else r ++ [(h.id, 1200)]) ratings

/-- Embeds `_select_hypothesis_pair`: seed missing ratings, then return the first
two hypotheses if there are at least two (the simplified selection the
source actually performs). -/
def selectPair (hyps : List Hypothesis) (ts : TournamentState) :
    TournamentState × Option (Hypothesis × Hypothesis) :=
  let ts' := { ts with ratings := initRatings ts.ratings hyps }
  match hyps with
  | h1 :: h2 :: _ => (ts', some (h1, h2))
  | _ => (ts', none)

/-- Expected score of a player rated `rA` against `rB`
(`e1 = 1 / (1 + 10 ** ((r2 - r1) / 400))` in `_update_elo_ratings`). -/
noncomputable def expectedScore (rA rB : ℤ) : ℝ :=
  1 / (1 + (10 : ℝ) ^ ((((rB : ℝ) - (rA : ℝ)) / 400) : ℝ))

/-- The update `round(r + k_factor * (s - e))` for a player rated `r` with actual
score `s` against a player rated `rOpp`. -/
noncomputable def eloNewRating (r s rOpp : ℤ) : ℤ :=
  round ((r : ℝ) + 32 * ((s : ℝ) - expectedScore r rOpp))

/-- The `if h1_id not in ratings: ratings[h1_id] = 1200` guard. -/
def ensureRating (d : List (String × ℤ)) (k : String) : List (String × ℤ) :=
  if dictMem d k then d else dictSet d k 1200

/-- Embeds `_update_elo_ratings`: seed missing ratings, update both players from
the pre-match ratings, append the match record. -/
noncomputable def updateEloRatings (h1 h2 winner : String)
    (ts : TournamentState) : TournamentState :=
  let r0 := ensureRating (ensureRating ts.ratings h1) h2
  let r1 := dictGet r0 h1 0
  let r2 := dictGet r0 h2 0
  let s1 : ℤ := if winner == h1 then 1 else 0
  let s2 : ℤ := if winner == h2 then 1 else 0
  { ts with
    ratings := dictSet (dictSet r0 h1 (eloNewRating r1 s1 r2)) h2 (eloNewRating r2 s2 r1),
    matchList := ts.matchList ++ [⟨h1, h2, winner⟩] }

/-- Embeds the core of `_run_match` on given ratings: a multi-turn scientific debate when both
ratings (defaulting to 1200) are at least 1300, else a single-turn simple
comparison.  Both routines draw the winner with `random.choice([h1, h2])`,
embedded as the boolean draw `choice` (`true` picks `h1`). -/
def runMatchCore (ratings : List (String × ℤ)) (choice : Bool)
    (h1 h2 : Hypothesis) : MatchResult :=
  let r1 := dictGet ratings h1.id 1200
  let r2 := dictGet ratings h2.id 1200
  let winner := if choice then h1.id else h2.id
  if 1300 ≤ r1 && 1300 ≤ r2 then
    { hypothesis_1 := h1.id, hypothesis_2 := h2.id, winner := winner, kind := .debate }
  else
    { hypothesis_1 := h1.id, hypothesis_2 := h2.id, winner := winner, kind := .simple }

/-- The ratings dict `_run_match` reads from context memory
(`tournament_state.get("ratings", {})`, with `{}` when the key is absent). -/
def ratingsOf (mem : Memory) : List (String × ℤ) :=
  match mem.tournamentState with
  | some ts => ts.ratings
  | none => []

/-- Embeds `_run_match` as the source runs it: ratings come from the
`tournament_state` currently stored in context memory. -/
def runMatch (mem : Memory) (choice : Bool) (h1 h2 : Hypothesis) : MatchResult :=
  runMatchCore (ratingsOf mem) choice h1 h2

/-- Insert into a descending-sorted list, before the first strictly smaller
rating (equal ratings keep the existing element after the inserted one only
when the inserted one came earlier — see `sortDesc`). -/
def insertDesc (p : String × ℤ) : List (String × ℤ) → List (String × ℤ)
  | [] => [p]
  | q :: qs => if q.2 ≤ p.2 then p :: q :: qs else q :: insertDesc p qs

/-- Stable descending sort by rating: the embedding of CPython
`sorted(keys, key=rating, reverse=True)`, which is stable, so ties keep
dict insertion order. -/
def sortDesc : List (String × ℤ) → List (String × ℤ)
  | [] => []
  | p :: ps => insertDesc p (sortDesc ps)

/-- Embeds `_get_top_ranked`: keep ratings whose id is an existing hypothesis, sort
descending by rating (stable), return the ids. -/
def getTopRanked (ts : TournamentState) (hyps : List Hypothesis) : List String :=
  let valid := ts.ratings.filter (fun p => hyps.any (fun h => h.id == p.1))
  (sortDesc valid).map Prod.fst

/-- The result dict of `_run_tournament_matches`: the error branch carries
keys `"error"` and `"tournament_state"`, the success branch `"matches"` and
`"tournament_state"`. -/
structure RankingResult where
  error : Option String
  matchResults : List MatchResult
  tournament_state : TournamentState
  deriving Repr, DecidableEq

/-- The match loop of `_run_tournament_matches`.  `aliased` records whether
the local tournament state is the same object as the one in context memory
(true when the state already existed there): `_run_match` reads ratings
from context memory, so it sees the live ratings exactly in that case, and
the empty dict otherwise.  `oracle i` is the winner draw of match `i`. -/
noncomputable def runMatchesLoop (oracle : ℕ → Bool) (aliased : Bool)
    (eligible : List Hypothesis) :
    ℕ → ℕ → TournamentState → TournamentState × List MatchResult
  | 0, _, ts => (ts, [])
  | n + 1, i, ts =>
    match selectPair eligible ts with
    | (ts', none) => (ts', [])
    | (ts', some (h1, h2)) =>
      let mres := runMatchCore (if aliased then ts'.ratings else []) (oracle i) h1 h2
      let ts'' := updateEloRatings h1.id h2.id mres.winner ts'
      let rest := runMatchesLoop oracle aliased eligible n (i + 1) ts''
      (rest.1, mres :: rest.2)

/-- The hypotheses eligible for the tournament
(`[h for h in hypotheses if h.get("id") in reviewed]`). -/
def eligibleOf (mem : Memory) : List Hypothesis :=
  mem.hypotheses.filter (fun h => mem.reviewed.contains h.id)

/-- Embeds `_run_tournament_matches`: initialize the state if absent, refuse with
an error map below 2 eligible hypotheses, otherwise run `count` matches and
update progress and the top-ranked list. -/
noncomputable def runTournamentMatches (mem : Memory) (oracle : ℕ → Bool)
    (count : ℕ) : RankingResult :=
  let ts0 := match mem.tournamentState with
    | some ts => ts
    | none => initTournament
  let eligible := eligibleOf mem
  if eligible.length < 2 then
    { error := some "Not enough reviewed hypotheses for tournament",
      matchResults := [], tournament_state := ts0 }
  else
    let aliased := mem.tournamentState.isSome
    let out := runMatchesLoop oracle aliased eligible count 0 ts0
    let total : ℚ := (eligible.length : ℚ) * ((eligible.length : ℚ) - 1) / 2
    let completed := out.1.completed_matches + out.2.length
    let ts2 := { out.1 with
      completed_matches := completed,
      progress := min 1 ((completed : ℚ) / max 1 total) }
    let ts3 := { ts2 with top_ranked := getTopRanked ts2 mem.hypotheses }
    { error := none, matchResults := out.2, tournament_state := ts3 }

/-- A `ranking.run_tournament_matches` task as processed by the supervisor
worker (`_worker`): the agent runs, then every key of the result map is
written back to context memory — in particular `"tournament_state"`, which
is present in the error map as well. -/
noncomputable def runTournamentTask (mem : Memory) (oracle : ℕ → Bool)
    (count : ℕ) : Memory × RankingResult :=
  let res := runTournamentMatches mem oracle count
  ({ mem with tournamentState := some res.tournament_state }, res)

/-- Lexicographic order on character sequences, used to spell out the
lexical-id tiebreak of the spec executably. -/
def charsLt : List Char → List Char → Bool
  | [], [] => false
  | [], _ :: _ => true
  | _ :: _, [] => false
  | c :: cs, d :: ds =>
    if c.toNat < d.toNat then true
    else if d.toNat < c.toNat then false
    else charsLt cs ds

/-- Lexical order on ids. -/
def strLexLt (a b : String) : Bool := charsLt a.data b.data

/-- The spec-side ordering (`Modelled from the spec`): ids of `ratings`
sorted by rating descending with ties broken by lexical order of the id.
Used only to compare against the ordering the source computes. -/
def lexInsertDesc (p : String × ℤ) : List (String × ℤ) → List (String × ℤ)
  | [] => [p]
  | q :: qs =>
    if q.2 < p.2 || (q.2 == p.2 && strLexLt p.1 q.1) then p :: q :: qs
    else q :: lexInsertDesc p qs

/-- The spec-side top-ranked list: keys of `ratings`, rating descending,
lexical tiebreak. -/
def specTopRanked (ts : TournamentState) : List String :=
  (ts.ratings.foldr lexInsertDesc []).map Prod.fst

/- ### Reflection agent (`src/agents/reflection_agent.py`) -/

/-- Embeds `_perform_initial_review`: the source returns a fixed record with
`"passed": True` (the model response is not parsed). -/
def performInitialReview (_h : Hypothesis) : Review :=
  { hypothesis_id := _h.id, passed := true }

/-- Embeds `_perform_full_review`: fixed record with `"passed": True`. -/
def performFullReview (_h : Hypothesis) : Review :=
  { hypothesis_id := _h.id, passed := true }

/-- Embeds `_perform_deep_verification`: fixed record with `"passed": True`. -/
def performDeepVerification (_h : Hypothesis) : Review :=
  { hypothesis_id := _h.id, passed := true }

/-- Embeds `_review_hypothesis`: look up the hypothesis (error map if absent),
run the review pipeline, and append the id to `reviewed_hypotheses`
unconditionally on the non-error path.  Returns the updated memory and the
review results (`none` for the error map). -/
def reviewHypothesis (mem : Memory) (hid : String) : Memory × Option Review :=
  match mem.hypotheses.find? (fun h => h.id == hid) with
  | none => (mem, none)
  | some h =>
    let ir := performInitialReview h
    let result : Review :=
      if ir.passed then
        { hypothesis_id := hid,
          passed := (performFullReview h).passed && (performDeepVerification h).passed }
      else
        { hypothesis_id := hid, passed := false }
    ({ mem with reviewed := mem.reviewed ++ [hid] }, some result)

/-- The mark-reviewed operation itself (`reviewed.append(hypothesis_id)`,
reflection agent lines 80-82): a plain list append. -/
def markReviewed (reviewed : List String) (hid : String) : List String :=
  reviewed ++ [hid]

/- ### Supervisor agent (`src/agents/supervisor_agent.py`) -/

/-- The top-ranked list as read from context memory
(`tournament.get("top_ranked", [])` via `_calculate_statistics`). -/
def topRankedOf (mem : Memory) : List String :=
  match mem.tournamentState with
  | some ts => ts.top_ranked
  | none => []

/-- The tournament progress as read from context memory
(`tournament.get("progress", 0)`). -/
def progressOf (mem : Memory) : ℚ :=
  match mem.tournamentState with
  | some ts => ts.progress
  | none => 0

/-- Embeds `_calculate_statistics`. -/
def calculateStatistics (mem : Memory) : Stats :=
  { num_hypotheses := mem.hypotheses.length,
    num_reviewed := mem.reviewed.length,
    unreviewed := (mem.hypotheses.filter
      (fun h => !(mem.reviewed.contains h.id))).map Hypothesis.id,
    tournament_progress := progressOf mem,
    top_hypotheses := (topRankedOf mem).take 10 }

/-- Embeds `_check_terminal_state`. -/
def checkTerminalState (stats : Stats) (iteration maxIterations : ℤ) : Bool :=
  if maxIterations - 1 ≤ iteration then true
  else if 10 ≤ stats.num_hypotheses ∧ 10 ≤ stats.num_reviewed ∧
      5 ≤ stats.top_hypotheses.length then
    if (9 : ℚ) / 10 < stats.tournament_progress then true else false
  else false

/-- Embeds `_update_task_queue`: the tasks enqueued during one refill, in order.
The statistics dict never carries a `"target_hypotheses"` key, so the
threshold is the default 20. -/
def updateTaskQueue (stats : Stats) : List Task :=
  (if stats.num_hypotheses < 20 then
    [{ agent := "generation", task_type := "generate_hypotheses", count := 5 }]
  else []) ++
  (stats.unreviewed.take 5).map (fun hid =>
    { agent := "reflection", task_type := "review_hypothesis", hypothesis_id := hid }) ++
  (if stats.tournament_progress < (8 : ℚ) / 10 then
    [{ agent := "ranking", task_type := "run_tournament_matches", count := 10 }]
  else []) ++
  (stats.top_hypotheses.take 3).map (fun hid =>
    { agent := "evolution", task_type := "evolve_hypothesis", hypothesis_id := hid })

/-- The result dict of the supervisor `execute`; only the `statistics`
entry (`stats_iteration_{i}` for the final loop index `i`) is claimed. -/
structure ExecResult where
  statistics : Stats
  deriving Repr, DecidableEq

/-- The round loop of `execute`: at round `i` the supervisor reads the
blackboard (abstracted as the snapshot `env i`, reflecting whatever the
concurrent workers have done), computes statistics, records them under
`stats_iteration_{i}`, and breaks when `_check_terminal_state` fires.
Returns the recorded statistics in order. -/
def execLoop (env : ℕ → Memory) (maxIterations : ℤ) :
    ℕ → ℕ → List Stats
  | 0, _ => []
  | fuel + 1, i =>
    let stats := calculateStatistics (env i)
    if checkTerminalState stats (i : ℤ) maxIterations then [stats]
    else stats :: execLoop env maxIterations fuel (i + 1)

/-- The deterministic skeleton of supervisor `execute`: run the round loop
over `range(max_iterations)`, then build the result dict, whose
`"statistics"` entry reads `stats_iteration_{i}` for the loop variable `i`.
When the loop body never ran, `i` is unbound and Python raises `NameError`
(embedded as the error case); nothing has been recorded.  Otherwise the
statistics of the last executed iteration are returned (no agent result
map carries a `stats_iteration_*` key, so the recorded value is intact). -/
def executeSup (env : ℕ → Memory) (maxIterations : ℤ) :
    Except String ExecResult × List Stats :=
  let records := execLoop env maxIterations maxIterations.toNat 0
  match records.getLast? with
  | none => (.error "NameError: name i is not defined", records)
  | some s => (.ok { statistics := s }, records)

/- ### Evolution agent (`src/agents/evolution_agent.py`) -/

/-- The result dict of `_evolve_hypothesis`. -/
structure EvolutionResult where
  error : Option String := none
  original_hypothesis_id : String := ""
  evolved : Option Hypothesis := none
  technique : String := ""
  deriving Repr, DecidableEq

/-- Embeds `_enhance_through_grounding` (dict copy plus overwritten fields). -/
def enhanceThroughGrounding (h : Hypothesis) (uuid : String) : Hypothesis :=
  { h with
    id := uuid,
    parent_id := h.id,
    title := "Enhanced: " ++ h.title,
    stmt := "Enhanced version of the original hypothesis with literature grounding",
    rationale := "Expanded rationale with literature support",
    generation_method := "evolution_enhance_grounding" }

/-- Embeds `_improve_coherence_and_feasibility`. -/
def improveCoherenceAndFeasibility (h : Hypothesis) (uuid : String) : Hypothesis :=
  { h with
    id := uuid,
    parent_id := h.id,
    title := "More Feasible: " ++ h.title,
    stmt := "More coherent and feasible version of the original hypothesis",
    rationale := "Clarified rationale addressing inconsistencies",
    testability := "More practical testing approach",
    generation_method := "evolution_improve_feasibility" }

/-- Embeds `_simplify_hypothesis`. -/
def simplifyHypothesis (h : Hypothesis) (uuid : String) : Hypothesis :=
  { h with
    id := uuid,
    parent_id := h.id,
    title := "Simplified: " ++ h.title,
    stmt := "Simplified version of the original hypothesis",
    rationale := "Streamlined rationale focusing on core ideas",
    testability := "Simplified testing approach",
    generation_method := "evolution_simplify" }

/-- Embeds `_out_of_box_thinking` (a fresh dict, not a copy). -/
def outOfBoxThinking (h : Hypothesis) (uuid : String) : Hypothesis :=
  { id := uuid, inspiration_id := h.id,
    title := "Out-of-Box: Inspired by " ++ h.title,
    stmt := "Novel hypothesis using out-of-box thinking",
    rationale := "Rationale explaining the unconventional approach",
    testability := "Testing approach for this novel perspective",
    generation_method := "evolution_out_of_box" }

/-- Embeds `_evolve_hypothesis`: the technique is drawn with `random.choice` from
a 4-element list; the draw is embedded as the index `pick % 4`.  The fresh
`uuid.uuid4()` is the parameter `uuid`.  Neither draw is derived from any
run parameter: the entry point `run_co_scientist(research_goal, output_file,
max_iterations, num_workers, model_config)` has no seed parameter. -/
def evolveHypothesis (mem : Memory) (hid : String) (pick : ℕ) (uuid : String) :
    Memory × EvolutionResult :=
  match mem.hypotheses.find? (fun h => h.id == hid) with
  | none => (mem, { error := some ("Hypothesis " ++ hid ++ " not found") })
  | some h =>
    let evolved := match pick % 4 with
      | 0 => enhanceThroughGrounding h uuid
      | 1 => improveCoherenceAndFeasibility h uuid
      | 2 => simplifyHypothesis h uuid
      | _ => outOfBoxThinking h uuid
    let name := match pick % 4 with
      | 0 => "_enhance_through_grounding"
      | 1 => "_improve_coherence_and_feasibility"
      | 2 => "_simplify_hypothesis"
      | _ => "_out_of_box_thinking"
    ({ mem with hypotheses := mem.hypotheses ++ [evolved] },
     { original_hypothesis_id := hid, evolved := some evolved, technique := name })

/- ### Auxiliary dict lemmas -/

theorem dictGet_of_not_dictMem (d : List (String × ℤ)) (k : String) (dflt : ℤ)
    (h : dictMem d k = false) : dictGet d k dflt = dflt := by
  induction d with
  | nil => simp [dictGet]
  | cons p ps ih =>
    simp [dictMem] at h
    simp [dictGet, h.1, ih h.2]

theorem dictGet_ensureRating_self (d : List (String × ℤ)) (k : String) (dflt : ℤ) :
    dictGet (ensureRating d k) k dflt = dictGet d k 1200 := by
  rw [ensureRating]
  cases h : dictMem d k with
  | true => simp [dictGet_of_dictMem d k dflt 1200 h]
  | false =>
    simp only [Bool.false_eq_true, if_false]
    rw [dictGet_dictSet_self, dictGet_of_not_dictMem d k 1200 h]

theorem dictGet_ensureRating_ne (d : List (String × ℤ)) (k k' : String)
    (dflt : ℤ) (h : k ≠ k') : dictGet (ensureRating d k') k dflt = dictGet d k dflt := by
  rw [ensureRating]
  cases hm : dictMem d k' with
  | true => simp
  | false =>
    simp only [Bool.false_eq_true, if_false]
    exact dictGet_dictSet_ne d k k' 1200 dflt h

/- ### Elo arithmetic lemmas -/

theorem expectedScore_self (r : ℤ) : expectedScore r r = 1 / 2 := by
  have h0 : ((((r : ℝ) - (r : ℝ)) / 400) : ℝ) = 0 := by ring
  rw [expectedScore, h0, Real.rpow_zero]
  norm_num

theorem eloNewRating_win_self (r : ℤ) : eloNewRating r 1 r = r + 16 := by
  rw [eloNewRating, expectedScore_self]
  have h : ((r : ℝ) + 32 * (((1 : ℤ) : ℝ) - 1 / 2)) = ((r + 16 : ℤ) : ℝ) := by
    push_cast; ring
  rw [h, round_intCast]

theorem eloNewRating_loss_self (r : ℤ) : eloNewRating r 0 r = r - 16 := by
  rw [eloNewRating, expectedScore_self]
  have h : ((r : ℝ) + 32 * (((0 : ℤ) : ℝ) - 1 / 2)) = ((r - 16 : ℤ) : ℝ) := by
    push_cast; ring
  rw [h, round_intCast]

/-- The state of the Elo-step scenario: two hypotheses pre-seeded at 1200. -/
def eloSeedState : TournamentState :=
  { ratings := [("h1", 1200), ("h2", 1200)], matchList := [],
    completed_matches := 0, progress := 0, top_ranked := [] }

theorem updateElo_ratings_eq (ts : TournamentState) (h1 h2 w : String)
    (hne : h1 ≠ h2) :
    (updateEloRatings h1 h2 w ts).ratings =
      dictSet (dictSet (ensureRating (ensureRating ts.ratings h1) h2) h1
        (eloNewRating (dictGet ts.ratings h1 1200) (if w == h1 then 1 else 0)
          (dictGet ts.ratings h2 1200))) h2
        (eloNewRating (dictGet ts.ratings h2 1200) (if w == h2 then 1 else 0)
          (dictGet ts.ratings h1 1200)) := by
  rw [updateEloRatings]
  have e1 : dictGet (ensureRating (ensureRating ts.ratings h1) h2) h1 0 =
      dictGet ts.ratings h1 1200 := by
    rw [dictGet_ensureRating_ne _ _ _ _ hne, dictGet_ensureRating_self]
  have e2 : dictGet (ensureRating (ensureRating ts.ratings h1) h2) h2 0 =
      dictGet ts.ratings h2 1200 := by
    rw [dictGet_ensureRating_self, dictGet_ensureRating_ne _ _ _ _ (Ne.symm hne)]
  rw [e1, e2]

/-- C1: the Elo rating update of `_update_elo_ratings` is standard Elo with
K-factor 32.  For a match between distinct hypotheses with pre-match
ratings `R_A` and `R_B` (defaulting to 1200), the new rating of each side
is the old rating plus `32 * (actual - expected)` rounded to the nearest
integer, with expected score `1 / (1 + 10 ^ ((R_B - R_A) / 400))` and
actual score 1 for the winner, 0 otherwise; in particular two hypotheses
both rated 1200 with the first winning end at 1216 and 1184. -/
theorem elo_update_is_standard_elo (ts : TournamentState) (h1 h2 w : String)
    (hne : h1 ≠ h2) :
    dictGet (updateEloRatings h1 h2 w ts).ratings h1 0 =
      round (((dictGet ts.ratings h1 1200 : ℤ) : ℝ) + 32 *
        ((if w = h1 then (1 : ℝ) else 0) -
          1 / (1 + (10 : ℝ) ^
            (((((dictGet ts.ratings h2 1200 : ℤ) : ℝ) -
               ((dictGet ts.ratings h1 1200 : ℤ) : ℝ)) / 400) : ℝ)))) ∧
    dictGet (updateEloRatings h1 h2 w ts).ratings h2 0 =
      round (((dictGet ts.ratings h2 1200 : ℤ) : ℝ) + 32 *
        ((if w = h2 then (1 : ℝ) else 0) -
          1 / (1 + (10 : ℝ) ^
            (((((dictGet ts.ratings h1 1200 : ℤ) : ℝ) -
               ((dictGet ts.ratings h2 1200 : ℤ) : ℝ)) / 400) : ℝ)))) ∧
    (updateEloRatings "h1" "h2" "h1" eloSeedState).ratings =
      [("h1", 1216), ("h2", 1184)] := by
  have castScore : ∀ (c : Bool), (((if c then 1 else 0 : ℤ)) : ℝ) =
      (if c then (1 : ℝ) else 0) := by
    intro c; cases c <;> simp
  refine ⟨?_, ?_, ?_⟩
  · rw [updateElo_ratings_eq ts h1 h2 w hne,
      dictGet_dictSet_ne _ _ _ _ _ hne, dictGet_dictSet_self,
      eloNewRating, expectedScore, castScore]
    simp only [beq_iff_eq]
  · rw [updateElo_ratings_eq ts h1 h2 w hne, dictGet_dictSet_self,
      eloNewRating, expectedScore, castScore]
    simp only [beq_iff_eq]
  · have hne' : ("h1" : String) ≠ "h2" := by decide
    rw [updateElo_ratings_eq eloSeedState "h1" "h2" "h1" hne']
    have g1 : dictGet eloSeedState.ratings "h1" 1200 = 1200 := by decide
    have g2 : dictGet eloSeedState.ratings "h2" 1200 = 1200 := by decide
    rw [g1, g2]
    have w1 : (if (("h1" : String) == "h1") = true then (1 : ℤ) else 0) = 1 := by
      decide
    have w2 : (if (("h1" : String) == "h2") = true then (1 : ℤ) else 0) = 0 := by
      decide
    rw [w1, w2, eloNewRating_win_self, eloNewRating_loss_self]
    decide

/-- C1 witness: the theorem applied to the pre-seeded 1200 vs 1200 state at
winner `"h1"`, hypotheses discharged concretely. -/
theorem elo_update_is_standard_elo_witness :
    ("h1" : String) ≠ "h2" ∧
    (updateEloRatings "h1" "h2" "h1" eloSeedState).ratings =
      [("h1", 1216), ("h2", 1184)] :=
  ⟨by decide, (elo_update_is_standard_elo eloSeedState "h1" "h2" "h1" (by decide)).2.2⟩

/-- The context memory at the start of a run (`context_memory = {}` in
`main.py`: no hypotheses, no reviewed ids, no tournament state). -/
def initMemory : Memory :=
  { hypotheses := [], reviewed := [], tournamentState := none }

/-- C7: `_run_match` runs a multi-turn scientific debate exactly when both
participants have rating at least 1300 at match time (ratings read from the
tournament state in context memory, defaulting to 1200), and a single-turn
simple comparison otherwise; either way the result has exactly one winner,
which is one of the two participants. -/
theorem match_kind_and_winner (mem : Memory) (choice : Bool) (h1 h2 : Hypothesis) :
    ((runMatch mem choice h1 h2).kind = MatchKind.debate ↔
      1300 ≤ dictGet (ratingsOf mem) h1.id 1200 ∧
      1300 ≤ dictGet (ratingsOf mem) h2.id 1200) ∧
    ((runMatch mem choice h1 h2).kind = MatchKind.debate ∨
      (runMatch mem choice h1 h2).kind = MatchKind.simple) ∧
    ((runMatch mem choice h1 h2).winner = h1.id ∨
      (runMatch mem choice h1 h2).winner = h2.id) := by
  have hkind : (runMatch mem choice h1 h2).kind =
      (if (1300 ≤ dictGet (ratingsOf mem) h1.id 1200 &&
           1300 ≤ dictGet (ratingsOf mem) h2.id 1200) = true
       then MatchKind.debate else MatchKind.simple) := by
    simp only [runMatch, runMatchCore]
    split_ifs <;> rfl
  have hwin : (runMatch mem choice h1 h2).winner =
      (if choice then h1.id else h2.id) := by
    simp only [runMatch, runMatchCore]
    split_ifs <;> rfl
  refine ⟨?_, ?_, ?_⟩
  · rw [hkind]
    split_ifs with hc
    · rw [Bool.and_eq_true, decide_eq_true_iff, decide_eq_true_iff] at hc
      exact iff_of_true rfl hc
    · rw [Bool.and_eq_true] at hc
      refine iff_of_false (by simp) ?_
      intro ⟨ha, hb⟩
      exact hc ⟨decide_eq_true ha, decide_eq_true hb⟩
  · rw [hkind]
    split_ifs
    · exact Or.inl rfl
    · exact Or.inr rfl
  · rw [hwin]
    split_ifs
    · exact Or.inl rfl
    · exact Or.inr rfl

/-- C6: the supervisor terminal predicate holds iff the iteration index is
at least `max_iterations - 1`, or all of: at least 10 hypotheses, at least
10 reviewed, at least 5 top-ranked entries, and tournament progress
strictly above 0.9. -/
theorem terminal_predicate_iff (mem : Memory) (i maxIterations : ℤ) :
    checkTerminalState (calculateStatistics mem) i maxIterations = true ↔
      (maxIterations - 1 ≤ i ∨
        (10 ≤ mem.hypotheses.length ∧ 10 ≤ mem.reviewed.length ∧
         5 ≤ (topRankedOf mem).length ∧ (9 : ℚ) / 10 < progressOf mem)) := by
  have htake : (5 ≤ ((topRankedOf mem).take 10).length) ↔
      5 ≤ (topRankedOf mem).length := by
    rw [List.length_take]
    omega
  rw [checkTerminalState]
  split_ifs with hA hB hC
  · simp [hA]
  · simp only [calculateStatistics] at hB hC
    simp only [true_iff]
    exact Or.inr ⟨hB.1, hB.2.1, htake.mp hB.2.2, hC⟩
  · simp only [calculateStatistics] at hB hC
    simp only [false_iff]
    rintro (h | ⟨_, _, _, hp⟩)
    · exact hA h
    · exact hC hp
  · simp only [calculateStatistics] at hB
    simp only [false_iff]
    rintro (h | ⟨h1, h2, h3, _⟩)
    · exact hA h
    · exact hB ⟨h1, h2, htake.mpr h3⟩

/-- Every task enqueued by a queue refill targets one of the four
capabilities generation, reflection, ranking, evolution. -/
theorem mem_updateTaskQueue_agent (stats : Stats) (t : Task)
    (ht : t ∈ updateTaskQueue stats) :
    t.agent = "generation" ∨ t.agent = "reflection" ∨
    t.agent = "ranking" ∨ t.agent = "evolution" := by
  rw [updateTaskQueue] at ht
  simp only [List.mem_append, List.mem_map] at ht
  rcases ht with ((hg | ⟨hid, _, rfl⟩) | hr) | ⟨hid, _, rfl⟩
  · split_ifs at hg <;> simp_all
  · right; left; rfl
  · split_ifs at hr <;> simp_all
  · right; right; right; rfl

/-- C8 (amended): the supervisor queue refill never enqueues a
`proximity.calculate_proximity` task — every enqueued task targets
generation, reflection, ranking, or evolution. -/
theorem queue_refill_never_proximity (stats : Stats) :
    (updateTaskQueue stats).filter (fun t => t.agent == "proximity") = [] ∧
    (updateTaskQueue stats).all (fun t => t.agent == "generation" ||
      t.agent == "reflection" || t.agent == "ranking" ||
      t.agent == "evolution") = true := by
  constructor
  · rw [List.filter_eq_nil_iff]
    intro t ht
    rcases mem_updateTaskQueue_agent stats t ht with h | h | h | h <;>
      simp [h]
  · rw [List.all_eq_true]
    intro t ht
    rcases mem_updateTaskQueue_agent stats t ht with h | h | h | h <;>
      simp [h]

/-- C8 counterexample: at a concrete refill (statistics of the empty
blackboard, as on any round, including every third one) the number of
proximity tasks enqueued is 0, not 1. -/
theorem queue_refill_proximity_count_counterexample :
    ((updateTaskQueue (calculateStatistics initMemory)).filter
      (fun t => t.agent == "proximity")).length ≠ 1 := by
  have hnil : (updateTaskQueue (calculateStatistics initMemory)).filter
      (fun t => t.agent == "proximity") = [] := by
    rw [List.filter_eq_nil_iff]
    intro t ht
    rcases mem_updateTaskQueue_agent _ t ht with h | h | h | h <;> simp [h]
  rw [hnil]
  decide

/-- C4 (amended): re-marking an already marked id leaves the membership set
of reviewed ids unchanged and loses no prior data (the list keeps every
earlier entry), but the operation appends unconditionally, so the reviewed
count (`num_reviewed` is the list length) grows by one at every mark and
can exceed the number of distinct reviewed ids; only the distinct count is
bounded by the list count. -/
theorem mark_reviewed_membership_idempotent (l : List String) (hid x : String) :
    (x ∈ markReviewed (markReviewed l hid) hid ↔ x ∈ markReviewed l hid) ∧
    (markReviewed (markReviewed l hid) hid).toFinset =
      (markReviewed l hid).toFinset ∧
    (markReviewed l hid).length = l.length + 1 ∧
    (markReviewed l hid).dedup.length ≤ (markReviewed l hid).length := by
  refine ⟨?_, ?_, by simp [markReviewed], (List.dedup_sublist _).length_le⟩
  · simp only [markReviewed, List.mem_append, List.mem_singleton]
    tauto
  · simp only [markReviewed, List.toFinset_append, List.toFinset_cons,
      List.toFinset_nil]
    rw [Finset.union_assoc, Finset.union_self]

/-- C4 counterexample: reviewing the same id twice makes the reviewed count
(the length of `reviewed_hypotheses`, which is what `num_reviewed` reports)
exceed the number of distinct reviewed ids. -/
theorem mark_reviewed_count_counterexample :
    ¬ ((markReviewed (markReviewed [] "h1") "h1").length ≤
       (markReviewed (markReviewed [] "h1") "h1").dedup.length) := by
  decide

/-- The round loop records at least one statistics entry when it runs. -/
theorem execLoop_ne_nil (env : ℕ → Memory) (maxIterations : ℤ) (fuel i : ℕ) :
    execLoop env maxIterations (fuel + 1) i ≠ [] := by
  rw [execLoop]
  split <;> simp

/-- C10: calling supervisor `execute` with `max_iterations ≤ 0` never runs
the round loop, records no statistics, and fails to build the result (the
loop variable in the statistics key is unbound, a `NameError`); for every
`max_iterations ≥ 1` it returns a result whose statistics entry is the
last recorded iteration statistics. -/
theorem execute_iteration_boundary (env : ℕ → Memory) (maxIterations : ℤ) :
    (maxIterations ≤ 0 →
      executeSup env maxIterations =
        (.error "NameError: name i is not defined", [])) ∧
    (1 ≤ maxIterations →
      ∃ pre s, (executeSup env maxIterations).2 = pre ++ [s] ∧
        (executeSup env maxIterations).1 = .ok { statistics := s }) := by
  constructor
  · intro h
    rw [executeSup, Int.toNat_of_nonpos h]
    rfl
  · intro h
    have hz : maxIterations.toNat ≠ 0 := by
      rw [Ne, Int.toNat_eq_zero]
      omega
    obtain ⟨n, hn⟩ := Nat.exists_eq_succ_of_ne_zero hz
    have hne : execLoop env maxIterations maxIterations.toNat 0 ≠ [] := by
      rw [hn]
      exact execLoop_ne_nil env maxIterations n 0
    have key : executeSup env maxIterations =
        (.ok { statistics :=
          (execLoop env maxIterations maxIterations.toNat 0).getLast hne },
         execLoop env maxIterations maxIterations.toNat 0) := by
      simp only [executeSup]
      rw [List.getLast?_eq_getLast_of_ne_nil hne]
    refine ⟨(execLoop env maxIterations maxIterations.toNat 0).dropLast,
      (execLoop env maxIterations maxIterations.toNat 0).getLast hne, ?_, ?_⟩
    · rw [key]
      exact (List.dropLast_append_getLast hne).symm
    · rw [key]

/-- C10 witness: the theorem applied at the constant empty blackboard with
`max_iterations = 0` (error, nothing recorded) and `max_iterations = 1`. -/
theorem execute_iteration_boundary_witness :
    ((0 : ℤ) ≤ 0 ∧ executeSup (fun _ => initMemory) 0 =
      (.error "NameError: name i is not defined", [])) ∧
    ((1 : ℤ) ≤ 1 ∧ ∃ pre s, (executeSup (fun _ => initMemory) 1).2 = pre ++ [s] ∧
      (executeSup (fun _ => initMemory) 1).1 = .ok { statistics := s }) :=
  ⟨⟨le_refl 0, (execute_iteration_boundary (fun _ => initMemory) 0).1 (le_refl 0)⟩,
   ⟨le_refl 1, (execute_iteration_boundary (fun _ => initMemory) 1).2 (le_refl 1)⟩⟩

/-- C5 (amended): running a tournament batch with fewer than 2 eligible
hypotheses returns an error map, and whenever a tournament state already
exists on the blackboard the task leaves the whole context memory
unchanged (the worker writes the identical state back).  (When no state
exists, the freshly initialized state is stored instead — see the
counterexample.) -/
theorem tournament_underfull_error (mem : Memory) (oracle : ℕ → Bool)
    (count : ℕ) (ts : TournamentState)
    (hts : mem.tournamentState = some ts)
    (helig : (eligibleOf mem).length < 2) :
    (runTournamentTask mem oracle count).2.error.isSome = true ∧
    (runTournamentTask mem oracle count).2.matchResults = [] ∧
    (runTournamentTask mem oracle count).1 = mem := by
  have hres : runTournamentMatches mem oracle count =
      { error := some "Not enough reviewed hypotheses for tournament",
        matchResults := [], tournament_state := ts } := by
    rw [runTournamentMatches, hts]
    simp [if_pos helig]
  have htask : runTournamentTask mem oracle count =
      ({ mem with tournamentState := some ts },
       { error := some "Not enough reviewed hypotheses for tournament",
         matchResults := [], tournament_state := ts }) := by
    rw [runTournamentTask, hres]
  rw [htask]
  refine ⟨rfl, rfl, ?_⟩
  rw [← hts]

/-- The memory of the C5 witness scenario: one unreviewed hypothesis and an
already-initialized tournament state. -/
def underfullMemory : Memory :=
  { hypotheses := [{ id := "h1" }], reviewed := [],
    tournamentState := some initTournament }

/-- C5 witness: the theorem applied to a blackboard with an existing
tournament state and no eligible hypotheses. -/
theorem tournament_underfull_error_witness :
    (eligibleOf underfullMemory).length < 2 ∧
    (runTournamentTask underfullMemory (fun _ => true) 5).2.error.isSome = true ∧
    (runTournamentTask underfullMemory (fun _ => true) 5).1 = underfullMemory :=
  ⟨by decide,
   (tournament_underfull_error underfullMemory (fun _ => true) 5 initTournament
     rfl (by decide)).1,
   (tournament_underfull_error underfullMemory (fun _ => true) 5 initTournament
     rfl (by decide)).2.2⟩

/-- C5 counterexample: on a blackboard with no stored tournament state, the
underfull task still returns an error map, but the worker write-back stores
the freshly initialized tournament state from that error map, so the stored
tournament state does change. -/
theorem tournament_underfull_state_changed_counterexample :
    (runTournamentTask initMemory (fun _ => true) 5).2.error.isSome = true ∧
    (runTournamentTask initMemory (fun _ => true) 5).1.tournamentState ≠
      initMemory.tournamentState := by
  refine ⟨rfl, ?_⟩
  intro h
  have : (some initTournament : Option TournamentState) = none := h
  cases this

/-- The memory of the C9 scenario: a single hypothesis to evolve. -/
def seedMemory : Memory :=
  { hypotheses := [{ id := "h1" }], reviewed := [], tournamentState := none }

/-- C9 (amended): the stochastic choices are functions of the external
random draws alone, not of any run parameter — the entry point has no seed
parameter.  The evolution outcome is determined by the technique draw
through its value mod 4 (the techniques list has 4 entries): equal draws
mod 4 give identical results for the same memory and uuid. -/
theorem evolve_deterministic_in_draw (mem : Memory) (hid : String)
    (p₁ p₂ : ℕ) (uuid : String) (h : p₁ % 4 = p₂ % 4) :
    evolveHypothesis mem hid p₁ uuid = evolveHypothesis mem hid p₂ uuid := by
  simp only [evolveHypothesis, h]

/-- C9 witness: draws 0 and 4 agree mod 4 and give the same evolution
result. -/
theorem evolve_deterministic_in_draw_witness :
    (0 : ℕ) % 4 = 4 % 4 ∧
    evolveHypothesis seedMemory "h1" 0 "u1" =
      evolveHypothesis seedMemory "h1" 4 "u1" :=
  ⟨by decide, evolve_deterministic_in_draw seedMemory "h1" 0 4 "u1" (by decide)⟩

/-- C9 counterexample: with identical research goal, configuration, memory,
model responses and uuid — everything the seedless entry point determines —
different hidden random draws change the evolution result and the
simple-comparison winner, so two runs with equal inputs need not be equal:
no seed parameter exists to pin the draws down. -/
theorem seeded_determinism_counterexample :
    evolveHypothesis seedMemory "h1" 0 "u1" ≠
      evolveHypothesis seedMemory "h1" 1 "u1" ∧
    (runMatch seedMemory true { id := "h1" } { id := "h2" }).winner ≠
      (runMatch seedMemory false { id := "h1" } { id := "h2" }).winner := by
  exact ⟨by decide, by decide⟩

/- ### Stable-sort lemmas for the top-ranked list -/

theorem insertDesc_perm (p : String × ℤ) (l : List (String × ℤ)) :
    (insertDesc p l).Perm (p :: l) := by
  induction l with
  | nil => simp [insertDesc]
  | cons q qs ih =>
    rw [insertDesc]
    split_ifs with h
    · exact List.Perm.refl _
    · exact (ih.cons q).trans (List.Perm.swap p q qs)

theorem sortDesc_perm (l : List (String × ℤ)) : (sortDesc l).Perm l := by
  induction l with
  | nil => simp [sortDesc]
  | cons p ps ih =>
    exact (insertDesc_perm p (sortDesc ps)).trans (ih.cons p)

theorem mem_insertDesc (p x : String × ℤ) (l : List (String × ℤ)) :
    x ∈ insertDesc p l ↔ x = p ∨ x ∈ l := by
  rw [(insertDesc_perm p l).mem_iff, List.mem_cons]

theorem insertDesc_pairwise (p : String × ℤ) (l : List (String × ℤ))
    (h : List.Pairwise (fun a b => b.2 ≤ a.2) l) :
    List.Pairwise (fun a b => b.2 ≤ a.2) (insertDesc p l) := by
  induction l with
  | nil => simp [insertDesc]
  | cons q qs ih =>
    obtain ⟨hq, hqs⟩ := List.pairwise_cons.mp h
    rw [insertDesc]
    split_ifs with hle
    · refine List.pairwise_cons.mpr ⟨?_, h⟩
      intro x hx
      rcases List.mem_cons.mp hx with rfl | hx'
      · exact hle
      · exact le_trans (hq x hx') hle
    · refine List.pairwise_cons.mpr ⟨?_, ih hqs⟩
      intro x hx
      rcases (mem_insertDesc p x qs).mp hx with rfl | hx'
      · exact le_of_lt (lt_of_not_le hle)
      · exact hq x hx'

theorem sortDesc_pairwise (l : List (String × ℤ)) :
    List.Pairwise (fun a b => b.2 ≤ a.2) (sortDesc l) := by
  induction l with
  | nil => simp [sortDesc]
  | cons p ps ih =>
    exact insertDesc_pairwise p (sortDesc ps) ih

theorem filter_insertDesc (p : String × ℤ) (l : List (String × ℤ)) (v : ℤ) :
    (insertDesc p l).filter (fun q => q.2 == v) =
      if p.2 = v then p :: l.filter (fun q => q.2 == v)
      else l.filter (fun q => q.2 == v) := by
  induction l with
  | nil =>
    by_cases hv : p.2 = v
    · rw [if_pos hv]
      simp [insertDesc, List.filter_cons, hv]
    · rw [if_neg hv]
      simp [insertDesc, List.filter_cons, hv]
  | cons q qs ih =>
    rw [insertDesc]
    by_cases hle : q.2 ≤ p.2
    · rw [if_pos hle]
      by_cases hv : p.2 = v
      · rw [if_pos hv]
        simp [List.filter_cons, hv]
      · rw [if_neg hv]
        simp [List.filter_cons, hv]
    · rw [if_neg hle]
      have hlt : p.2 < q.2 := lt_of_not_le hle
      by_cases hv : p.2 = v
      · have hqv : ¬ q.2 = v := by
          intro hq
          rw [hv, hq] at hlt
          exact lt_irrefl v hlt
        rw [if_pos hv, List.filter_cons, List.filter_cons]
        simp only [show (q.2 == v) = false by
          simpa [beq_eq_false_iff_ne] using hqv, Bool.false_eq_true, if_false]
        rw [ih, if_pos hv]
      · rw [if_neg hv, List.filter_cons, List.filter_cons, ih, if_neg hv]

theorem sortDesc_filter (l : List (String × ℤ)) (v : ℤ) :
    (sortDesc l).filter (fun q => q.2 == v) = l.filter (fun q => q.2 == v) := by
  induction l with
  | nil => simp [sortDesc]
  | cons p ps ih =>
    rw [sortDesc, filter_insertDesc]
    by_cases hv : p.2 = v <;> simp [List.filter_cons, hv, ih]

/-- C3 (amended): the top-ranked list computed by the ranking agent
consists of the ids of the ratings keys that belong to existing
hypotheses — exactly the keys of `ratings` whenever every key is an
existing hypothesis id — sorted by rating descending; ties keep the
insertion order of the ratings map (hypothesis-list order), not lexical
id order. -/
theorem top_ranked_characterization (ts : TournamentState)
    (hyps : List Hypothesis)
    (hsub : ∀ p ∈ ts.ratings, ∃ h ∈ hyps, h.id = p.1) :
    getTopRanked ts hyps = (sortDesc ts.ratings).map Prod.fst ∧
    (sortDesc ts.ratings).Perm ts.ratings ∧
    List.Pairwise (fun a b => b.2 ≤ a.2) (sortDesc ts.ratings) ∧
    ∀ v : ℤ, (sortDesc ts.ratings).filter (fun q => q.2 == v) =
      ts.ratings.filter (fun q => q.2 == v) := by
  refine ⟨?_, sortDesc_perm _, sortDesc_pairwise _, fun v => sortDesc_filter _ v⟩
  rw [getTopRanked]
  have hfil : ts.ratings.filter (fun p => hyps.any (fun h => h.id == p.1)) =
      ts.ratings := by
    rw [List.filter_eq_self]
    intro p hp
    obtain ⟨h, hh, hid⟩ := hsub p hp
    exact List.any_eq_true.mpr ⟨h, hh, by simp [hid]⟩
  rw [hfil]

/-- C3 witness: the characterization applied to the pre-seeded two-player
state, with the stability equation instantiated at rating 1200. -/
theorem top_ranked_characterization_witness :
    (∀ p ∈ eloSeedState.ratings,
      ∃ h ∈ [({ id := "h1" } : Hypothesis), { id := "h2" }], h.id = p.1) ∧
    getTopRanked eloSeedState [{ id := "h1" }, { id := "h2" }] =
      (sortDesc eloSeedState.ratings).map Prod.fst ∧
    (sortDesc eloSeedState.ratings).Perm eloSeedState.ratings ∧
    List.Pairwise (fun a b => b.2 ≤ a.2) (sortDesc eloSeedState.ratings) ∧
    (sortDesc eloSeedState.ratings).filter (fun q => q.2 == 1200) =
      eloSeedState.ratings.filter (fun q => q.2 == 1200) := by
  have hsub : ∀ p ∈ eloSeedState.ratings,
      ∃ h ∈ [({ id := "h1" } : Hypothesis), { id := "h2" }], h.id = p.1 := by
    decide
  obtain ⟨h1, h2, h3, h4⟩ :=
    top_ranked_characterization eloSeedState [{ id := "h1" }, { id := "h2" }] hsub
  exact ⟨hsub, h1, h2, h3, h4 1200⟩

/- ### A concrete tournament run with a rating tie -/

/-- Four reviewed hypotheses whose list order is the reverse of lexical
order (ids are opaque uuid strings in the source, so list order and
lexical order are unrelated). -/
def fourHyps : List Hypothesis :=
  [{ id := "h4" }, { id := "h3" }, { id := "h2" }, { id := "h1" }]

/-- Blackboard with the four reviewed hypotheses and no tournament state. -/
def fourMemory : Memory :=
  { hypotheses := fourHyps, reviewed := ["h4", "h3", "h2", "h1"],
    tournamentState := none }

/-- Tournament state after `_select_hypothesis_pair` seeded all ratings. -/
def seededState : TournamentState :=
  { ratings := [("h4", 1200), ("h3", 1200), ("h2", 1200), ("h1", 1200)],
    matchList := [], completed_matches := 0, progress := 0, top_ranked := [] }

/-- Tournament state after h4 beats h3: h2 and h1 are tied at 1200, with h2
before h1 in ratings-insertion order but after it in lexical order. -/
def afterMatchState : TournamentState :=
  { ratings := [("h4", 1216), ("h3", 1184), ("h2", 1200), ("h1", 1200)],
    matchList := [{ hypothesis_1 := "h4", hypothesis_2 := "h3", winner := "h4" }],
    completed_matches := 0, progress := 0, top_ranked := [] }

theorem four_updateElo :
    updateEloRatings "h4" "h3" "h4" seededState = afterMatchState := by
  have hne : ("h4" : String) ≠ "h3" := by decide
  have hrat : (updateEloRatings "h4" "h3" "h4" seededState).ratings =
      afterMatchState.ratings := by
    rw [updateElo_ratings_eq _ _ _ _ hne]
    have g1 : dictGet seededState.ratings "h4" 1200 = 1200 := by decide
    have g2 : dictGet seededState.ratings "h3" 1200 = 1200 := by decide
    rw [g1, g2]
    have w1 : (if (("h4" : String) == "h4") = true then (1 : ℤ) else 0) = 1 := by
      decide
    have w2 : (if (("h4" : String) == "h3") = true then (1 : ℤ) else 0) = 0 := by
      decide
    rw [w1, w2, eloNewRating_win_self, eloNewRating_loss_self]
    decide
  have hrest : updateEloRatings "h4" "h3" "h4" seededState =
      { seededState with
        ratings := (updateEloRatings "h4" "h3" "h4" seededState).ratings,
        matchList :=
          [{ hypothesis_1 := "h4", hypothesis_2 := "h3", winner := "h4" }] } := rfl
  rw [hrest, hrat]
  rfl

theorem four_loop :
    runMatchesLoop (fun _ => true) false fourHyps 1 0 initTournament =
      (afterMatchState,
       [{ hypothesis_1 := "h4", hypothesis_2 := "h3", winner := "h4",
          kind := MatchKind.simple }]) := by
  have hsp : selectPair fourHyps initTournament =
      (seededState, some ({ id := "h4" }, { id := "h3" })) := by decide
  have hmres : runMatchCore (if false = true then seededState.ratings else [])
      ((fun _ => true) 0) { id := "h4" } { id := "h3" } =
      { hypothesis_1 := "h4", hypothesis_2 := "h3", winner := "h4",
        kind := MatchKind.simple } := by decide
  show runMatchesLoop (fun _ => true) false fourHyps (0 + 1) 0 initTournament = _
  rw [runMatchesLoop, hsp]
  dsimp only
  rw [hmres]
  dsimp only
  rw [four_updateElo, runMatchesLoop]

/-- The function `_get_top_ranked` reads only the ratings of the tournament state. -/
theorem getTopRanked_congr (ts ts' : TournamentState) (hyps : List Hypothesis)
    (h : ts.ratings = ts'.ratings) : getTopRanked ts hyps = getTopRanked ts' hyps := by
  rw [getTopRanked, getTopRanked, h]

/-- The tournament state stored after one match on `fourMemory`. -/
def fourFinalState : TournamentState :=
  { ratings := [("h4", 1216), ("h3", 1184), ("h2", 1200), ("h1", 1200)],
    matchList := [{ hypothesis_1 := "h4", hypothesis_2 := "h3", winner := "h4" }],
    completed_matches := 1, progress := 1 / 6,
    top_ranked := ["h4", "h2", "h1", "h3"] }

theorem four_final_state :
    (runTournamentTask fourMemory (fun _ => true) 1).2.tournament_state =
      fourFinalState := by
  have helig : eligibleOf fourMemory = fourHyps := by decide
  have hts0 : fourMemory.tournamentState = none := rfl
  have hhyp : fourMemory.hypotheses = fourHyps := rfl
  show (runTournamentMatches fourMemory (fun _ => true) 1).tournament_state =
    fourFinalState
  rw [runTournamentMatches, hts0]
  dsimp only [Option.isSome]
  rw [helig, hhyp]
  rw [if_neg (by decide : ¬ fourHyps.length < 2)]
  dsimp only
  rw [four_loop]
  dsimp only
  have hgt : getTopRanked
      { afterMatchState with
        completed_matches := afterMatchState.completed_matches + 1,
        progress := min 1
          (((afterMatchState.completed_matches + 1 : ℕ) : ℚ) /
            max 1 ((fourHyps.length : ℚ) * ((fourHyps.length : ℚ) - 1) / 2)) }
      fourHyps = ["h4", "h2", "h1", "h3"] := by
    exact (getTopRanked_congr _ afterMatchState fourHyps rfl).trans (by decide)
  rw [fourFinalState]
  simp only [TournamentState.mk.injEq]
  refine ⟨by decide, by decide, by decide, ?_, ?_⟩
  · show min 1 (((afterMatchState.completed_matches + 1 : ℕ) : ℚ) /
      max 1 ((fourHyps.length : ℚ) * ((fourHyps.length : ℚ) - 1) / 2)) = 1 / 6
    norm_num [afterMatchState, fourHyps, min_def, max_def]
  · exact hgt

/-- C3 counterexample: a tournament state actually produced by the ranking
operations (one `run_tournament_matches` batch of one match on four
reviewed hypotheses, h4 beating h3) whose `top_ranked` list breaks the
1200-rating tie between h2 and h1 by ratings-insertion order
(`["h4","h2","h1","h3"]`), not by lexical id order (`["h4","h1","h2","h3"]`
as the spec ordering demands). -/
theorem top_ranked_lexical_counterexample :
    (runTournamentTask fourMemory (fun _ => true) 1).2.tournament_state.top_ranked ≠
      specTopRanked
        (runTournamentTask fourMemory (fun _ => true) 1).2.tournament_state := by
  rw [four_final_state]
  decide

/- ### Review gating of tournament matches -/

theorem reviewHypothesis_some_eq (m : Memory) (hid : String) (m₁ : Memory)
    (r : Review) (h : reviewHypothesis m hid = (m₁, some r)) :
    m₁ = { m with reviewed := m.reviewed ++ [hid] } ∧ r.passed = true := by
  rw [reviewHypothesis] at h
  cases hf : m.hypotheses.find? (fun h0 => h0.id == hid) with
  | none =>
    rw [hf] at h
    exact absurd (congrArg Prod.snd h) (by simp)
  | some h0 =>
    rw [hf] at h
    simp only [performInitialReview, performFullReview, performDeepVerification,
      if_true, Prod.mk.injEq, Option.some.injEq] at h
    obtain ⟨hm, hr⟩ := h
    refine ⟨hm.symm, ?_⟩
    rw [← hr]
    rfl

theorem reviewHypothesis_none_eq (m : Memory) (hid : String) (m₁ : Memory)
    (h : reviewHypothesis m hid = (m₁, none)) : m₁ = m := by
  rw [reviewHypothesis] at h
  cases hf : m.hypotheses.find? (fun h0 => h0.id == hid) with
  | none =>
    rw [hf] at h
    exact (congrArg Prod.fst h).symm
  | some h0 =>
    rw [hf] at h
    exact absurd (congrArg Prod.snd h) (by simp [performInitialReview])

/-- The runs of the orchestration that can populate `reviewed_hypotheses`,
with the trace of the reviews the reflection agent returned.  Only the
reflection agent writes `reviewed_hypotheses` (the generation and
evolution agents append hypotheses, the ranking worker rewrites the
tournament state; none touches the reviewed list). -/
inductive SysRun : Memory → List (String × Review) → Memory → Prop where
  | nil (m : Memory) : SysRun m [] m
  | review (m mNext mEnd : Memory) (hid : String) (r : Review)
      (tr : List (String × Review))
      (hstep : reviewHypothesis m hid = (mNext, some r))
      (hrest : SysRun mNext tr mEnd) : SysRun m ((hid, r) :: tr) mEnd
  | reviewErr (m mNext mEnd : Memory) (hid : String)
      (tr : List (String × Review))
      (hstep : reviewHypothesis m hid = (mNext, none))
      (hrest : SysRun mNext tr mEnd) : SysRun m tr mEnd
  | generate (m mEnd : Memory) (hs : List Hypothesis)
      (tr : List (String × Review))
      (hrest : SysRun { m with hypotheses := m.hypotheses ++ hs } tr mEnd) :
      SysRun m tr mEnd
  | ranking (m mEnd : Memory) (oracle : ℕ → Bool) (count : ℕ)
      (tr : List (String × Review))
      (hrest : SysRun (runTournamentTask m oracle count).1 tr mEnd) :
      SysRun m tr mEnd

/-- In any run, an id in the final reviewed list either was reviewed at the
start or was marked by a review operation whose returned review passed. -/
theorem sysRun_reviewed_source (m₀ : Memory) (tr : List (String × Review))
    (m₁ : Memory) (hrun : SysRun m₀ tr m₁) (hid : String)
    (hmem : hid ∈ m₁.reviewed) :
    hid ∈ m₀.reviewed ∨ ∃ r, (hid, r) ∈ tr ∧ r.passed = true := by
  induction hrun with
  | nil m => exact Or.inl hmem
  | review m mNext mEnd hid0 r tr hstep hrest ih =>
    obtain ⟨hmn, hpass⟩ := reviewHypothesis_some_eq m hid0 mNext r hstep
    rcases ih hmem with h | ⟨r', hr', hp⟩
    · rw [hmn] at h
      simp only [List.mem_append, List.mem_singleton] at h
      rcases h with h | rfl
      · exact Or.inl h
      · exact Or.inr ⟨r, List.mem_cons_self _ _, hpass⟩
    · exact Or.inr ⟨r', List.mem_cons_of_mem _ hr', hp⟩
  | reviewErr m mNext mEnd hid0 tr hstep hrest ih =>
    rcases ih hmem with h | h
    · rw [reviewHypothesis_none_eq m hid0 mNext hstep] at h
      exact Or.inl h
    · exact Or.inr h
  | generate m mEnd hs tr hrest ih =>
    rcases ih hmem with h | h
    · exact Or.inl h
    · exact Or.inr h
  | ranking m mEnd oracle count tr hrest ih =>
    rcases ih hmem with h | h
    · exact Or.inl h
    · exact Or.inr h

theorem runMatchCore_participant_fields (ratings : List (String × ℤ))
    (choice : Bool) (h1 h2 : Hypothesis) :
    (runMatchCore ratings choice h1 h2).hypothesis_1 = h1.id ∧
    (runMatchCore ratings choice h1 h2).hypothesis_2 = h2.id := by
  simp only [runMatchCore]
  split_ifs <;> exact ⟨rfl, rfl⟩

/-- Every match the loop produces is between the first two eligible
hypotheses (the selector always returns the first two). -/
theorem loop_matches_first_two (oracle : ℕ → Bool) (aliased : Bool)
    (e1 e2 : Hypothesis) (rest : List Hypothesis) :
    ∀ (fuel i : ℕ) (ts : TournamentState) (mres : MatchResult),
      mres ∈ (runMatchesLoop oracle aliased (e1 :: e2 :: rest) fuel i ts).2 →
      mres.hypothesis_1 = e1.id ∧ mres.hypothesis_2 = e2.id := by
  intro fuel
  induction fuel with
  | zero =>
    intro i ts mres hm
    simp [runMatchesLoop] at hm
  | succ n ih =>
    intro i ts mres hm
    rw [runMatchesLoop] at hm
    simp only [selectPair] at hm
    rcases List.mem_cons.mp hm with rfl | hm'
    · exact runMatchCore_participant_fields _ _ e1 e2
    · exact ih (i + 1) _ mres hm'

/-- Every match of a tournament batch is between reviewed hypotheses. -/
theorem task_participants_reviewed (mem : Memory) (oracle : ℕ → Bool)
    (count : ℕ) (mres : MatchResult)
    (hm : mres ∈ (runTournamentTask mem oracle count).2.matchResults) :
    mres.hypothesis_1 ∈ mem.reviewed ∧ mres.hypothesis_2 ∈ mem.reviewed := by
  have hm' : mres ∈ (runTournamentMatches mem oracle count).matchResults := hm
  rw [runTournamentMatches] at hm'
  dsimp only at hm'
  by_cases hlen : (eligibleOf mem).length < 2
  · rw [if_pos hlen] at hm'
    simp at hm'
  · rw [if_neg hlen] at hm'
    obtain ⟨e1, e2, rest, heq⟩ : ∃ a b l, eligibleOf mem = a :: b :: l := by
      match hE : eligibleOf mem with
      | [] => rw [hE] at hlen; simp at hlen
      | [a] => rw [hE] at hlen; simp at hlen
      | a :: b :: l => exact ⟨a, b, l, rfl⟩
    rw [heq] at hm'
    obtain ⟨h1eq, h2eq⟩ := loop_matches_first_two oracle _ e1 e2 rest count 0 _ mres hm'
    have he1 : e1 ∈ eligibleOf mem := by rw [heq]; exact List.mem_cons_self _ _
    have he2 : e2 ∈ eligibleOf mem := by
      rw [heq]
      exact List.mem_cons_of_mem _ (List.mem_cons_self _ _)
    have hc1 := (List.mem_filter.mp he1).2
    have hc2 := (List.mem_filter.mp he2).2
    constructor
    · rw [h1eq]
      simpa using hc1
    · rw [h2eq]
      simpa using hc2

/-- C2: in every run of the system starting from the empty blackboard,
every hypothesis selected as a participant of a tournament match has a
review on record with `passed = true`; a hypothesis whose review did not
pass is never selected.  (In this code every completed review passes —
the dummy review pipeline returns `passed=True` — and membership in
`reviewed_hypotheses`, the eligibility test, is granted only by a
completed review.) -/
theorem match_participants_have_passing_review (tr : List (String × Review))
    (mem : Memory) (hrun : SysRun initMemory tr mem) (oracle : ℕ → Bool)
    (count : ℕ) (mres : MatchResult)
    (hm : mres ∈ (runTournamentTask mem oracle count).2.matchResults) :
    (∃ r, (mres.hypothesis_1, r) ∈ tr ∧ r.passed = true) ∧
    (∃ r, (mres.hypothesis_2, r) ∈ tr ∧ r.passed = true) := by
  obtain ⟨h1r, h2r⟩ := task_participants_reviewed mem oracle count mres hm
  constructor
  · rcases sysRun_reviewed_source initMemory tr mem hrun _ h1r with h | h
    · simp [initMemory] at h
    · exact h
  · rcases sysRun_reviewed_source initMemory tr mem hrun _ h2r with h | h
    · simp [initMemory] at h
    · exact h

/-- A review record with `passed = true`, as the reflection pipeline
produces. -/
def passReview (hid : String) : Review := { hypothesis_id := hid, passed := true }

/-- Blackboard after generating two hypotheses, before reviews. -/
def memA : Memory :=
  { hypotheses := [{ id := "h1" }, { id := "h2" }], reviewed := [],
    tournamentState := none }

/-- Blackboard after reviewing h1. -/
def memB : Memory :=
  { hypotheses := [{ id := "h1" }, { id := "h2" }], reviewed := ["h1"],
    tournamentState := none }

/-- Blackboard after reviewing both hypotheses. -/
def reviewedMemory : Memory :=
  { hypotheses := [{ id := "h1" }, { id := "h2" }], reviewed := ["h1", "h2"],
    tournamentState := none }

/-- A concrete run: generate two hypotheses, review both. -/
theorem sysRun_two_reviews : SysRun initMemory
    [("h1", passReview "h1"), ("h2", passReview "h2")] reviewedMemory :=
  SysRun.generate _ _ [{ id := "h1" }, { id := "h2" }] _
    (SysRun.review memA memB reviewedMemory "h1" (passReview "h1") _
      (by decide)
      (SysRun.review memB reviewedMemory reviewedMemory "h2" (passReview "h2") _
        (by decide)
        (SysRun.nil reviewedMemory)))

/-- C2 witness: in the concrete two-hypothesis run, the one match of a
batch pairs h1 and h2, and the theorem yields passing reviews for both
from the trace. -/
theorem match_participants_have_passing_review_witness :
    (∃ r, (("h1" : String), r) ∈
        [("h1", passReview "h1"), ("h2", passReview "h2")] ∧ r.passed = true) ∧
    (∃ r, (("h2" : String), r) ∈
        [("h1", passReview "h1"), ("h2", passReview "h2")] ∧ r.passed = true) := by
  have hm : (MatchResult.mk "h1" "h2" "h1" MatchKind.simple) ∈
      (runTournamentTask reviewedMemory (fun _ => true) 1).2.matchResults := by
    have heq : (runTournamentTask reviewedMemory (fun _ => true) 1).2.matchResults =
        [MatchResult.mk "h1" "h2" "h1" MatchKind.simple] := rfl
    rw [heq]
    exact List.mem_singleton_self _
  exact match_participants_have_passing_review _ _ sysRun_two_reviews
    (fun _ => true) 1 _ hm

end CoScientist
